import Mathlib

/-!
Shallow embedding of the visualsynth synthesizer core (Rust) in Lean 4.

Conventions of the embedding:
* `f32` values are modelled as exact rationals (`ℚ`); floating-point rounding
  is not modelled.  Transcendental helpers of the Rust standard library are
  modelled as explicit function parameters:
  - `sin2pi : ℚ → ℚ` stands for the map `x ↦ (x * 2π).sin()` computed in `f32`
    (the source only ever calls `sin` on arguments of the form `phase * TWO_PI`);
  - `pow2 : ℚ → ℚ` stands for the map `x ↦ 2.0f32.powf(x)`.
  Theorems that need analytic facts about these functions take them as
  hypotheses (e.g. `∀ x, |sin2pi x| ≤ 1`, `sin2pi 0 = 0`, `pow2 x < 1` for
  `x < 0`), each of which holds for the IEEE-754 `f32` implementations.
* Rust machine-integer casts are made explicit: `castUsize`/`castU32` model
  saturating float-to-integer casts (`as usize`, `as u32`).
* Atomics and mutexes are erased: the shared `TremoloEffect` is a plain record
  and its operations are explicit state-passing functions.  This models the
  sequential semantics of the operations, which is what the claims are about.
* Rust `HashMap<String, bool>` is modelled as an association list with
  no duplicate keys (`playing_keys_nodup` below is the representation
  invariant); insertion replaces the value of an existing key.
-/

/-- Truncation toward zero, as performed by Rust float-to-integer casts and by
the float remainder operator. -/
def truncQ (x : ℚ) : ℤ :=
  if 0 ≤ x then ⌊x⌋ else -⌊-x⌋

/-- Rust `x % 1.0` on `f32`: `x - trunc(x)`. -/
def rustRemOne (x : ℚ) : ℚ :=
  x - truncQ x

/-- Rust `as usize` cast from `f32`: truncate toward zero, saturating at the
bounds of the 64-bit unsigned range. -/
def castUsize (x : ℚ) : ℕ :=
  min (truncQ x).toNat (2 ^ 64 - 1)

/-- Rust `as u32` cast from `f32`: truncate toward zero, saturating at the
bounds of the 32-bit unsigned range. -/
def castU32 (x : ℚ) : ℕ :=
  min (truncQ x).toNat (2 ^ 32 - 1)

/-- Array lookup `t[i]` on a fixed-size 1024-entry table.  The Rust code would
panic on an out-of-bounds index; the default `0` is never reached in the
theorems below (the in-bounds side conditions are proved). -/
def tableGet (t : Fin 1024 → ℚ) (i : ℕ) : ℚ :=
  if h : i < 1024 then t ⟨i, h⟩ else 0

/-! ## `src/synth/adsr_envelope.rs` -/

/-- Mirrors `struct AmplitudeEnvelope`. -/
structure AmplitudeEnvelope where
  attack_time : ℚ
  decay_time : ℚ
  sustain_level : ℚ
  release_time : ℚ

/-- Mirrors `AmplitudeEnvelope::amplitude_at_time`. -/
def AmplitudeEnvelope.amplitude_at_time (e : AmplitudeEnvelope) (time : ℚ) : ℚ :=
  if time < e.attack_time then
    time / e.attack_time
  else if time < e.attack_time + e.decay_time then
    1 - (time - e.attack_time) / e.decay_time * (1 - e.sustain_level)
  else if time < e.attack_time + e.decay_time + e.release_time then
    e.sustain_level * (1 - (time - e.attack_time - e.decay_time) / e.release_time)
  else
    0

/-! ## `src/synth/tremolo.rs` -/

/-- Mirrors `struct Tremolo` (`TREMOLO_TABLE_SIZE = 1024`).  The atomic
`usize` fields are plain naturals here. -/
structure Tremolo where
  rate : ℚ
  depth : ℚ
  tremolo_table : Fin 1024 → ℚ
  table_index : ℕ
  samples_per_tremolo_cycle : ℕ
  sample_counter : ℕ

/-- Mirrors `Tremolo::new`.  `tremolo_table[i] = 1.0 - depth * sin(2π·i/1024)`.
Note: when `rate = 0` the Rust `sample_rate / rate` is an `f32` infinity and
the saturating cast yields `usize::MAX`, while `ℚ` division by zero yields `0`;
the field only controls the counter wrap cadence and no theorem below depends
on its value. -/
def Tremolo.new (sin2pi : ℚ → ℚ) (rate depth sample_rate : ℚ) : Tremolo :=
  { rate := rate
    depth := depth
    tremolo_table := fun i => 1 - depth * sin2pi ((i : ℚ) / 1024)
    table_index := 0
    samples_per_tremolo_cycle := castUsize (sample_rate / rate)
    sample_counter := 0 }

/-- Mirrors `Tremolo::process`: returns the modulated sample and the advanced
LFO state (`fetch_add` on the counter; on completing a sub-cycle the counter
resets and the table index advances modulo the table size). -/
def Tremolo.process (t : Tremolo) (sample : ℚ) (_sample_rate : ℚ) : ℚ × Tremolo :=
  let amplitude := tableGet t.tremolo_table t.table_index
  let t2 :=
    if t.sample_counter + 1 ≥ t.samples_per_tremolo_cycle then
      { t with sample_counter := 0, table_index := (t.table_index + 1) % 1024 }
    else
      { t with sample_counter := t.sample_counter + 1 }
  (sample * amplitude, t2)

/-- Mirrors `Tremolo::reset`. -/
def Tremolo.reset (t : Tremolo) : Tremolo :=
  { t with table_index := 0, sample_counter := 0 }

/-- Mirrors `struct TremoloEffect` (`SCALE_FACTOR = 1000`).  The `AtomicU32`
fields `rate`/`depth` hold the scaled integer representations; `enabled` is
the `AtomicBool`. -/
structure TremoloEffect where
  tremolo : Tremolo
  enabled : Bool
  rate : ℕ
  depth : ℕ

/-- Mirrors `TremoloEffect::process`. -/
def TremoloEffect.process (te : TremoloEffect) (sample sample_rate : ℚ) :
    ℚ × TremoloEffect :=
  if te.enabled then
    let r := te.tremolo.process sample sample_rate
    (r.1, { te with tremolo := r.2 })
  else
    (sample, te)

/-- Mirrors `TremoloEffect::toggle`: `fetch_xor(true)` flips the flag and
returns the OLD value; the inner LFO is reset exactly when the old value was
`true` (i.e. on the enable→disable transition). -/
def TremoloEffect.toggle (te : TremoloEffect) : TremoloEffect :=
  let enabled := te.enabled
  let te2 := { te with enabled := !te.enabled }
  if enabled then { te2 with tremolo := te2.tremolo.reset } else te2

/-- Mirrors `TremoloEffect::set_rate`. -/
def TremoloEffect.set_rate (te : TremoloEffect) (rate : ℚ) : TremoloEffect :=
  { te with rate := castU32 (rate * 1000) }

/-- Mirrors `TremoloEffect::set_depth`.  NOTE: the source stores the scaled
depth into `self.rate` (not `self.depth`); this is reproduced faithfully. -/
def TremoloEffect.set_depth (te : TremoloEffect) (depth : ℚ) : TremoloEffect :=
  { te with rate := castU32 (depth * 1000) }

/-- Mirrors `TremoloEffect::get_rate`. -/
def TremoloEffect.get_rate (te : TremoloEffect) : ℚ :=
  (te.rate : ℚ) / 1000

/-- Mirrors `TremoloEffect::get_depth`. -/
def TremoloEffect.get_depth (te : TremoloEffect) : ℚ :=
  (te.depth : ℚ) / 1000

/-- Mirrors `TremoloEffectBuilder::build` after setting `rate`, `depth` and
`enabled` (the fluent setters just store the given fields). -/
def tremoloEffectBuild (sin2pi : ℚ → ℚ) (rate depth : ℚ) (enabled : Bool)
    (sample_rate : ℚ) : TremoloEffect :=
  { tremolo := Tremolo.new sin2pi rate depth sample_rate
    enabled := enabled
    rate := castU32 (rate * 1000)
    depth := castU32 (depth * 1000) }

/-! ## `src/synth/waveform_generator.rs` -/

/-- Mirrors `enum OscillatorWaveform` (from `src/synth/oscillator.rs`). -/
inductive OscillatorWaveform where
  | Silence
  | Sine
  | Square
  | Sawtooth
  | Triangle
deriving DecidableEq

/-- Mirrors the five `WAVETABLES` entries (`WAVETABLE_SIZE = 1024`), as a map
from the waveform kind to the table selected by `WaveformGenerator::new`.
The sine table entry `((i * 2π)/1024).sin()` is `sin2pi (i/1024)` in terms of
the `sin2pi` parameter. -/
def waveTable (sin2pi : ℚ → ℚ) : OscillatorWaveform → Fin 1024 → ℚ
  | .Silence => fun _ => 0
  | .Sine => fun i => sin2pi ((i : ℚ) / 1024)
  | .Square => fun i => if (i : ℕ) < 512 then 1 else -1
  | .Sawtooth => fun i => 2 * ((i : ℚ) / 1024) - 1
  | .Triangle => fun i =>
      let phase := (i : ℚ) / 1024
      if phase < 1/2 then 4 * phase - 1 else 3 - 4 * phase

/-- Mirrors `struct WaveformGenerator`; the `&'static` wavetable reference is
the table function itself. -/
structure WaveformGenerator where
  wavetable : Fin 1024 → ℚ
  phase : ℚ
  phase_inc : ℚ
  sample_rate : ℚ

/-- Mirrors `WaveformGenerator::new`. -/
def WaveformGenerator.new (sin2pi : ℚ → ℚ) (waveform : OscillatorWaveform)
    (frequency sample_rate : ℚ) : WaveformGenerator :=
  { wavetable := waveTable sin2pi waveform
    phase := 0
    phase_inc := frequency / sample_rate
    sample_rate := sample_rate }

/-- Mirrors `WaveformGenerator::update_phase`: `phase = (phase + phase_inc) % 1.0`. -/
def WaveformGenerator.update_phase (g : WaveformGenerator) : WaveformGenerator :=
  { g with phase := rustRemOne (g.phase + g.phase_inc) }

/-- Mirrors `WaveformGenerator::get_sample`: truncating table index, linear
interpolation toward the (wrapped) next entry, then phase advance. -/
def WaveformGenerator.get_sample (g : WaveformGenerator) : ℚ × WaveformGenerator :=
  let index := castUsize (g.phase * 1024)
  let frac := g.phase * 1024 - (index : ℚ)
  let sample := tableGet g.wavetable index
  let next_sample := tableGet g.wavetable ((index + 1) % 1024)
  let interpolated_sample := sample + frac * (next_sample - sample)
  (interpolated_sample, g.update_phase)

/-- Mirrors `WaveformGenerator::set_frequency`. -/
def WaveformGenerator.set_frequency (g : WaveformGenerator) (frequency : ℚ) :
    WaveformGenerator :=
  { g with phase_inc := frequency / g.sample_rate }

/-- Mirrors `WaveformGenerator::get_frequency`. -/
def WaveformGenerator.get_frequency (g : WaveformGenerator) : ℚ :=
  g.phase_inc * g.sample_rate

/-- Repeated `get_sample`: the list of produced samples and the final state. -/
def WaveformGenerator.get_samples (g : WaveformGenerator) : ℕ → List ℚ × WaveformGenerator
  | 0 => ([], g)
  | n + 1 =>
    let r := g.get_sample
    let rest := r.2.get_samples n
    (r.1 :: rest.1, rest.2)

/-! ## `src/synth/oscillator.rs` -/

/-- Mirrors `struct Oscillator`.  The `Arc<TremoloEffect>` is held by value;
the claims below treat the effect state explicitly. -/
structure Oscillator where
  waveform_generator : WaveformGenerator
  envelope : AmplitudeEnvelope
  tremolo_effect : TremoloEffect
  note : String
  start_time : Option ℚ

/-- Mirrors `Oscillator::new`. -/
def Oscillator.new (sin2pi : ℚ → ℚ) (frequency sample_rate : ℚ)
    (waveform : OscillatorWaveform) (note : String)
    (attack_time decay_time sustain_level release_time : ℚ)
    (tremolo_effect : TremoloEffect) : Oscillator :=
  { waveform_generator := WaveformGenerator.new sin2pi waveform frequency sample_rate
    envelope :=
      { attack_time := attack_time
        decay_time := decay_time
        sustain_level := sustain_level
        release_time := release_time }
    tremolo_effect := tremolo_effect
    note := note
    start_time := none }

/-- Mirrors `Oscillator::start_note`. -/
def Oscillator.start_note (osc : Oscillator) (start_time : ℚ) : Oscillator :=
  { osc with start_time := some start_time }

/-- Helper for `Oscillator::generate_wave`: the per-sample loop, carrying the
loop index `i` and the mutable `WaveformGenerator` state.  When tremolo is
enabled the source builds a BRAND-NEW `Tremolo` from the current rate/depth for
every sample and immediately discards its advanced state. -/
def genSamples (sin2pi : ℚ → ℚ) (env : AmplitudeEnvelope) (te : TremoloEffect)
    (tremolo_enabled : Bool) (start_time current_time : ℚ) :
    ℕ → ℕ → WaveformGenerator → List ℚ × WaveformGenerator
  | _, 0, g => ([], g)
  | i, n + 1, g =>
    let sample_time := current_time + (i : ℚ) / g.sample_rate
    let r := g.get_sample
    let envelope_value := env.amplitude_at_time (sample_time - start_time)
    let output_sample := r.1 * envelope_value
    let output_sample :=
      if tremolo_enabled then
        let rate := te.get_rate
        let depth := te.get_depth
        let tremolo := Tremolo.new sin2pi rate depth g.sample_rate
        (tremolo.process output_sample g.sample_rate).1
      else output_sample
    let rest := genSamples sin2pi env te tremolo_enabled start_time current_time
      (i + 1) n r.2
    (output_sample :: rest.1, rest.2)

/-- Mirrors `Oscillator::generate_wave`. -/
def Oscillator.generate_wave (sin2pi : ℚ → ℚ) (osc : Oscillator)
    (current_time : ℚ) (num_samples : ℕ) : List ℚ × Oscillator :=
  let start_time := osc.start_time.getD current_time
  let tremolo_enabled := osc.tremolo_effect.enabled
  let r := genSamples sin2pi osc.envelope osc.tremolo_effect tremolo_enabled
    start_time current_time 0 num_samples osc.waveform_generator
  (r.1, { osc with waveform_generator := r.2 })

/-- Mirrors `OscillatorBuilder::build` as invoked by the audio loop in
`src/main.rs`: the builder chain sets `frequency`, `waveform`,
`attack_time(0.5)`, `release_time(0.5)` and the shared tremolo handle, and
KEEPS the builder defaults for everything else — `sample_rate = 44100.0`,
`decay_time = 0.1`, `sustain_level = 0.7`, and in particular
`note = "A4"` (the chain never calls a note setter; indeed
`OscillatorBuilder` does not even have one). -/
def oscillatorFromAudioLoopBuilder (sin2pi : ℚ → ℚ) (frequency : ℚ)
    (waveform : OscillatorWaveform) (tremolo_effect : TremoloEffect) : Oscillator :=
  Oscillator.new sin2pi frequency 44100 waveform "A4" (1/2) (1/10) (7/10) (1/2)
    tremolo_effect

/-! ## `src/synth/keys/keys.rs` -/

/-- Mirrors `NOTE_SEQUENCE`: the 13-entry chromatic sequence. -/
def NOTE_SEQUENCE : List String :=
  ["C", "C_SHARP", "D", "D_SHARP", "E", "F", "F_SHARP", "G", "G_SHARP", "A",
   "A_SHARP", "B", "C_HIGH"]

/-- Rust `str::to_uppercase` restricted to the ASCII strings this program
uses: uppercase each character. -/
def rustToUppercase (s : String) : String :=
  String.mk (s.data.map Char.toUpper)

/-- Mirrors `struct Scale`. -/
structure Scale where
  root_note : String
  intervals : List ℤ

/-- Mirrors `Scale::calculate_frequency`.  The source fixes `a4_index = 12`
(its comment asserts that A4 is the 13th entry of `NOTE_SEQUENCE`, i.e. index
12 of the 0-indexed array) and computes
`440.0 * 2.0f32.powf((note_index - a4_index) / 12.0)`.
`pow2` stands for `2.0f32.powf`; the scale fields are not consulted at all. -/
def Scale.calculate_frequency (pow2 : ℚ → ℚ) (_s : Scale) (note : String) :
    Option ℚ :=
  let a4_index : ℤ := 12
  let a4_frequency : ℚ := 440
  match NOTE_SEQUENCE.findIdx? (fun n => n == rustToUppercase note) with
  | some note_index =>
      let semitone_distance : ℤ := (note_index : ℤ) - a4_index
      some (a4_frequency * pow2 ((semitone_distance : ℚ) / 12))
  | none => none

/-- The scale installed at startup by `src/main.rs`. -/
def scaleC : Scale :=
  { root_note := "C", intervals := [2, 2, 1, 2, 2, 2, 1] }

/-! ## `src/synth/keys/note_state.rs` -/

/-- `HashMap::insert` on the association-list model of
`playing_notes: HashMap<String, bool>`: replace the value of an existing key,
otherwise add the binding. -/
def assocInsert (m : List (String × Bool)) (key : String) (value : Bool) :
    List (String × Bool) :=
  if m.any (fun p => p.1 == key) then
    m.map (fun p => if p.1 == key then (key, value) else p)
  else
    m ++ [(key, value)]

/-- Mirrors `struct NoteState` (the unused `activation_order` map is
omitted; no claim touches it). -/
structure NoteState where
  playing_notes : List (String × Bool)
  oscillators : List Oscillator

/-- Representation invariant of the `HashMap` model: no duplicate keys. -/
def playingKeysNodup (s : NoteState) : Prop :=
  (s.playing_notes.map Prod.fst).Nodup

/-- Mirrors `NoteState::note_on`. -/
def NoteState.note_on (s : NoteState) (note : String) : NoteState :=
  { s with playing_notes := assocInsert s.playing_notes note true }

/-- Mirrors `NoteState::note_off`. -/
def NoteState.note_off (s : NoteState) (note : String) : NoteState :=
  { s with playing_notes := assocInsert s.playing_notes note false }

/-! ## `src/main.rs` -/

/-- The frequency adjustment applied at voice creation in `run_audio_loop`:
`frequency * 2.0f32.powf(octave_shift as f32)`.  For the reachable shifts
(|shift| ≤ 2) the `f32` power of two is exact, so the integer power on `ℚ` is
the faithful model. -/
def adjustedFrequency (frequency : ℚ) (octave_shift : ℤ) : ℚ :=
  frequency * 2 ^ octave_shift

/-- One step of the voice-creation loop of `run_audio_loop` (lines 220–244):
for a playing note with no oscillator of that key in the pool, resolve the
frequency (skipping the note entirely when the lookup fails), adjust by the
octave shift and push a freshly built-and-started oscillator. -/
def reconcileStep (sin2pi pow2 : ℚ → ℚ) (waveform : OscillatorWaveform)
    (octave_shift : ℤ) (current_time : ℚ) (tremolo_effect : TremoloEffect)
    (scale : Scale) (oscillators : List Oscillator) (p : String × Bool) :
    List Oscillator :=
  if p.2 && !(oscillators.any (fun osc => osc.note == p.1)) then
    match scale.calculate_frequency pow2 p.1 with
    | some frequency =>
        let oscillator := oscillatorFromAudioLoopBuilder sin2pi
          (adjustedFrequency frequency octave_shift) waveform tremolo_effect
        oscillators ++ [oscillator.start_note current_time]
    | none => oscillators
  else
    oscillators

/-- The per-block pool reconciliation of `run_audio_loop` (lines 199–244):
snapshot the playing map, retain only oscillators whose note key is currently
flagged playing, then create missing oscillators for playing notes. -/
def NoteState.reconcile (sin2pi pow2 : ℚ → ℚ) (waveform : OscillatorWaveform)
    (octave_shift : ℤ) (current_time : ℚ) (tremolo_effect : TremoloEffect)
    (scale : Scale) (s : NoteState) : NoteState :=
  let playing_notes := s.playing_notes
  let retained := s.oscillators.filter
    (fun osc => playing_notes.any (fun p => p.1 == osc.note && p.2))
  { s with
    oscillators := playing_notes.foldl
      (reconcileStep sin2pi pow2 waveform octave_shift current_time
        tremolo_effect scale) retained }

/-- The `ChangeOctave` handling of `run_event_loop` (lines 404–428): add ±1
according to the direction string, then `clamp(-2, 2)`. -/
def octaveStep (octave_shift : ℤ) (direction : String) : ℤ :=
  let shifted := octave_shift + (if direction == "up" then 1 else -1)
  max (-2) (min 2 shifted)

/-! ## Scenario constants used by concrete theorems -/

/-- Repeated `TremoloEffect::process` calls (sample, sample_rate pairs),
keeping only the evolving effect state. -/
def TremoloEffect.processMany (te : TremoloEffect) (inputs : List (ℚ × ℚ)) :
    TremoloEffect :=
  inputs.foldl (fun acc p => (acc.process p.1 p.2).2) te

/-- Placeholder `f32` sine model used for concrete evaluations (`sin 0 = 0`
holds for it, as for the real `f32` sine). -/
def sinZero : ℚ → ℚ := fun _ => 0

/-- Placeholder `2.0f32.powf` model used for concrete evaluations. -/
def powOne : ℚ → ℚ := fun _ => 1

/-- The shared tremolo effect exactly as built at startup by `src/main.rs`:
`rate(5.0).depth(0.5).enabled(false).build(sample_rate)`. -/
def teDefault : TremoloEffect := tremoloEffectBuild sinZero 5 (1/2) false 44100

/-- A `TremoloEffect` state with tremolo disabled and a mid-cycle LFO phase
(table index 5): reachable by enabling, letting five LFO sub-cycles elapse and
then disabling. -/
def teMidPhase : TremoloEffect :=
  { tremolo := { Tremolo.new sinZero 5 (1/2) 44100 with table_index := 5 }
    enabled := false
    rate := 5000
    depth := 500 }

/-- The initial `NoteState::new()`. -/
def emptyNoteState : NoteState := { playing_notes := [], oscillators := [] }

/-- An oscillator whose note key is `"C4"` (constructed directly through
`Oscillator::new`, which does take a note argument). -/
def oscC4 : Oscillator :=
  Oscillator.new sinZero 440 44100 OscillatorWaveform.Sine "C4" (1/2) (1/10)
    (7/10) (1/2) teDefault

/-- A pool state whose map flags `"C4"` playing and whose pool holds the
matching oscillator. -/
def noteStateC4 : NoteState :=
  { playing_notes := [("C4", true)], oscillators := [oscC4] }

/-- Concrete envelope used to witness the envelope theorem. -/
def envelopeUnit : AmplitudeEnvelope :=
  { attack_time := 1, decay_time := 1, sustain_level := 1/2, release_time := 1 }

/-- Helper invariant for the depth-0 tremolo: the LFO table is constantly 1
and the table index is in bounds. -/
def unitTable (t : Tremolo) : Prop :=
  (∀ i, t.tremolo_table i = 1) ∧ t.table_index < 1024

/-! ## Claim theorems -/

/-- Evaluation helper: `truncQ` on a value lying in `[n, n+1)` for a natural
`n` is `n`. -/
theorem truncQ_eq_ofNat (x : ℚ) (n : ℕ) (h1 : (n : ℚ) ≤ x) (h2 : x < n + 1) :
    truncQ x = n := by
  have hx : 0 ≤ x := le_trans (by positivity) h1
  rw [truncQ, if_pos hx]
  have : ⌊x⌋ = (n : ℤ) := by
    rw [Int.floor_eq_iff]
    constructor
    · exact_mod_cast h1
    · push_cast
      exact h2
  rw [this]

/-- Evaluation helper for the saturating `u32` cast on small values. -/
theorem castU32_eq (x : ℚ) (n : ℕ) (h1 : (n : ℚ) ≤ x) (h2 : x < n + 1)
    (h3 : n < 2 ^ 32) : castU32 x = n := by
  rw [castU32, truncQ_eq_ofNat x n h1 h2]
  simp only [Int.toNat_natCast]
  omega

/-- Evaluation helper for the saturating `usize` cast on small values. -/
theorem castUsize_eq (x : ℚ) (n : ℕ) (h1 : (n : ℚ) ≤ x) (h2 : x < n + 1)
    (h3 : n < 2 ^ 64) : castUsize x = n := by
  rw [castUsize, truncQ_eq_ofNat x n h1 h2]
  simp only [Int.toNat_natCast]
  omega

/-- C2 (code_bug evidence): on the startup-configured effect
(rate 5.0, depth 0.5), `set_depth(0.25)` leaves `get_depth()` at the old
value 0.5 — not 0.25 as the claim requires — and instead clobbers the rate:
`get_rate()` becomes 0.25.  The cause is that `TremoloEffect::set_depth`
stores into the `rate` atomic. -/
theorem set_depth_clobbers_rate_not_depth :
    (teDefault.set_depth (1/4)).get_depth = 1/2 ∧
    ¬ (teDefault.set_depth (1/4)).get_depth = 1/4 ∧
    (teDefault.set_depth (1/4)).get_rate = 1/4 ∧
    teDefault.get_rate = 5 := by
  have h500 : castU32 ((1/2 : ℚ) * 1000) = 500 :=
    castU32_eq _ 500 (by norm_num) (by norm_num) (by norm_num)
  have h250 : castU32 ((1/4 : ℚ) * 1000) = 250 :=
    castU32_eq _ 250 (by norm_num) (by norm_num) (by norm_num)
  have h5000 : castU32 ((5 : ℚ) * 1000) = 5000 :=
    castU32_eq _ 5000 (by norm_num) (by norm_num) (by norm_num)
  refine ⟨?_, ?_, ?_, ?_⟩
  · show ((castU32 ((1/2 : ℚ) * 1000) : ℕ) : ℚ) / 1000 = 1/2
    rw [h500]
    norm_num
  · show ¬ ((castU32 ((1/2 : ℚ) * 1000) : ℕ) : ℚ) / 1000 = 1/4
    rw [h500]
    norm_num
  · show ((castU32 ((1/4 : ℚ) * 1000) : ℕ) : ℚ) / 1000 = 1/4
    rw [h250]
    norm_num
  · show ((castU32 ((5 : ℚ) * 1000) : ℕ) : ℚ) / 1000 = 5
    rw [h5000]
    norm_num

/-- C3 (counterexample): from a state with tremolo DISABLED and the LFO
mid-phase (table index 5), `toggle()` performs the disable→enable transition
but does NOT reset the LFO index to 0 — `fetch_xor` returns the old flag, so
the reset branch runs only when the effect was previously enabled. -/
theorem toggle_enable_transition_no_reset :
    teMidPhase.enabled = false ∧
    teMidPhase.toggle.enabled = true ∧
    teMidPhase.tremolo.table_index = 5 ∧
    ¬ teMidPhase.toggle.tremolo.table_index = 0 := by
  refine ⟨rfl, rfl, rfl, ?_⟩
  decide

/-- C3 (amended): `toggle()` always flips the enabled flag; the LFO
index/counter reset happens exactly on the enable→disable transition (old
flag `true`), and the disable→enable transition leaves the LFO phase state
untouched. -/
theorem toggle_flips_and_resets_on_disable (te : TremoloEffect) :
    te.toggle.enabled = !te.enabled ∧
    (te.enabled = true → te.toggle.tremolo = te.tremolo.reset) ∧
    (te.enabled = false → te.toggle.tremolo = te.tremolo) := by
  unfold TremoloEffect.toggle
  cases h : te.enabled <;> simp [h]

/-- C3 witness: instantiating the amended theorem at the concrete mid-phase
state. -/
theorem toggle_flips_and_resets_on_disable_witness :
    teMidPhase.enabled = false ∧ teMidPhase.toggle.tremolo = teMidPhase.tremolo :=
  ⟨rfl, (toggle_flips_and_resets_on_disable teMidPhase).2.2 rfl⟩

theorem unitTable_new (sin2pi : ℚ → ℚ) (rate sample_rate : ℚ) :
    unitTable (Tremolo.new sin2pi rate 0 sample_rate) := by
  constructor
  · intro i
    simp [Tremolo.new]
  · simp [Tremolo.new]

theorem unitTable_process (t : Tremolo) (h : unitTable t) (s r : ℚ) :
    (t.process s r).1 = s ∧ unitTable (t.process s r).2 := by
  obtain ⟨h1, h2⟩ := h
  constructor
  · show s * tableGet t.tremolo_table t.table_index = s
    rw [tableGet, dif_pos h2, h1]
    ring
  · unfold Tremolo.process
    by_cases hc : t.sample_counter + 1 ≥ t.samples_per_tremolo_cycle
    · simp only [hc, if_true, if_pos]
      exact ⟨h1, Nat.mod_lt _ (by norm_num)⟩
    · simp only [hc, if_neg, if_false]
      exact ⟨h1, h2⟩

theorem unitTable_effect_process (te : TremoloEffect) (h : unitTable te.tremolo)
    (s r : ℚ) :
    (te.process s r).1 = s ∧ unitTable (te.process s r).2.tremolo := by
  unfold TremoloEffect.process
  by_cases he : te.enabled
  · simp only [he, if_true]
    exact ⟨(unitTable_process te.tremolo h s r).1, (unitTable_process te.tremolo h s r).2⟩
  · simp only [he, if_false]
    exact ⟨rfl, h⟩

theorem unitTable_processMany (inputs : List (ℚ × ℚ)) :
    ∀ te : TremoloEffect, unitTable te.tremolo →
      unitTable (te.processMany inputs).tremolo := by
  induction inputs with
  | nil => intro te h; exact h
  | cons p rest ih =>
      intro te h
      exact ih _ (unitTable_effect_process te h p.1 p.2).2

/-- C9: `TremoloEffect::process` is the identity on the sample whenever no
modulation should apply.  (1) With `enabled = false`, `process(s, r)` returns
`s` and leaves the state unchanged.  (2) For an effect built with `depth = 0`
— whatever its enabled flag and after any number of prior `process` calls —
`process(s, r)` returns `s`, because every LFO gain is `1 - 0·sin(…) = 1`.
(3) `toggle()` twice restores the original enabled flag. -/
theorem tremolo_process_identity_cases :
    (∀ (te : TremoloEffect) (s r : ℚ), te.enabled = false →
      (te.process s r).1 = s ∧ (te.process s r).2 = te) ∧
    (∀ (sin2pi : ℚ → ℚ) (rate : ℚ) (enabled : Bool) (sample_rate : ℚ)
      (inputs : List (ℚ × ℚ)) (s r : ℚ),
      (((tremoloEffectBuild sin2pi rate 0 enabled sample_rate).processMany
          inputs).process s r).1 = s) ∧
    (∀ te : TremoloEffect, te.toggle.toggle.enabled = te.enabled) := by
  refine ⟨?_, ?_, ?_⟩
  · intro te s r h
    unfold TremoloEffect.process
    rw [h]
    exact ⟨rfl, rfl⟩
  · intro sin2pi rate enabled sample_rate inputs s r
    have hbase : unitTable (tremoloEffectBuild sin2pi rate 0 enabled sample_rate).tremolo :=
      unitTable_new sin2pi rate sample_rate
    exact (unitTable_effect_process _ (unitTable_processMany inputs _ hbase) s r).1
  · intro te
    cases h : te.enabled <;> simp [TremoloEffect.toggle, h]

/-- C9 witness: the identity cases evaluated at concrete states and samples. -/
theorem tremolo_process_identity_cases_witness :
    teMidPhase.enabled = false ∧
    (teMidPhase.process 7 3).1 = 7 ∧
    (((tremoloEffectBuild sinZero 5 0 true 44100).processMany [(1, 2)]).process
      9 44100).1 = 9 ∧
    teMidPhase.toggle.toggle.enabled = teMidPhase.enabled :=
  ⟨rfl, (tremolo_process_identity_cases.1 teMidPhase 7 3 rfl).1,
    tremolo_process_identity_cases.2.1 sinZero 5 true 44100 [(1, 2)] 9 44100,
    tremolo_process_identity_cases.2.2 teMidPhase⟩

theorem octaveStep_mem_range (shift : ℤ) (d : String) :
    -2 ≤ octaveStep shift d ∧ octaveStep shift d ≤ 2 := by
  unfold octaveStep
  constructor
  · exact le_max_left _ _
  · exact max_le (by norm_num) (min_le_left _ _)

theorem octaveStep_foldl_range (dirs : List String) :
    ∀ shift : ℤ, -2 ≤ shift → shift ≤ 2 →
      -2 ≤ dirs.foldl octaveStep shift ∧ dirs.foldl octaveStep shift ≤ 2 := by
  induction dirs with
  | nil => intro shift h1 h2; exact ⟨h1, h2⟩
  | cons d rest ih =>
      intro shift h1 h2
      exact ih (octaveStep shift d) (octaveStep_mem_range shift d).1
        (octaveStep_mem_range shift d).2

/-- C8: the octave shift saturates at [-2, 2].  (1) From any in-range shift,
any sequence of `ChangeOctave` events keeps the shift in [-2, 2] (so repeated
"up" never exceeds +2 and repeated "down" never goes below -2); the program
starts at shift 0 and every write clamps, so in-range states are exactly the
reachable ones.  (2) Even from an arbitrary integer, a single event already
clamps into [-2, 2], hence any nonempty event sequence ends in range; the
request is clamped, never rejected.  (3) The per-voice frequency multiplier
applied at voice creation is `2^octave_shift`. -/
theorem octave_shift_saturates :
    (∀ (shift : ℤ) (dirs : List String), -2 ≤ shift → shift ≤ 2 →
      -2 ≤ dirs.foldl octaveStep shift ∧ dirs.foldl octaveStep shift ≤ 2) ∧
    (∀ (shift : ℤ) (d : String) (dirs : List String),
      -2 ≤ (d :: dirs).foldl octaveStep shift ∧
        (d :: dirs).foldl octaveStep shift ≤ 2) ∧
    (∀ (frequency : ℚ) (shift : ℤ),
      adjustedFrequency frequency shift = frequency * 2 ^ shift) := by
  refine ⟨fun shift dirs => octaveStep_foldl_range dirs shift, ?_, fun _ _ => rfl⟩
  intro shift d dirs
  exact octaveStep_foldl_range dirs (octaveStep shift d)
    (octaveStep_mem_range shift d).1 (octaveStep_mem_range shift d).2

/-- C8 witness: three "up" events from shift 1 (and from the out-of-range
start 7) land at exactly 2. -/
theorem octave_shift_saturates_witness :
    (-2 ≤ (1 : ℤ) ∧ (1 : ℤ) ≤ 2 ∧
      -2 ≤ ["up", "up", "up"].foldl octaveStep 1 ∧
      ["up", "up", "up"].foldl octaveStep 1 ≤ 2) ∧
    (["up", "up", "up"].foldl octaveStep 7 ≤ 2 ∧
      adjustedFrequency 440 0 = 440 * 2 ^ (0 : ℤ)) :=
  ⟨⟨by norm_num, by norm_num,
    (octave_shift_saturates.1 1 ["up", "up", "up"] (by norm_num) (by norm_num)).1,
    (octave_shift_saturates.1 1 ["up", "up", "up"] (by norm_num) (by norm_num)).2⟩,
   (octave_shift_saturates.2.1 7 "up" ["up", "up"]).2,
   octave_shift_saturates.2.2 440 0⟩

/-- C1 (code_bug evidence): with the startup scale (root "C", major
intervals), `calculate_frequency("A")` does not return 440 Hz.  The source
fixes the reference index `a4_index = 12`, but `"A"` sits at index 9 of
`NOTE_SEQUENCE` (index 12 is `"C_HIGH"`), so the computed semitone distance is
`9 - 12 = -3` and the result is `440 · 2^(-3/12) = 440 · 2^(-1/4) ≈ 369.99 Hz
< 440`.  (`pow2` models `2.0f32.powf`; any model with `pow2 (-1/4) < 1` —
true of the real one, since `2^(-1/4) ≈ 0.8409` — exhibits the divergence.) -/
theorem calculate_frequency_A_not_440 (pow2 : ℚ → ℚ)
    (hpow : pow2 (-1/4) < 1) :
    scaleC.calculate_frequency pow2 "A" = some (440 * pow2 (-1/4)) ∧
    ∀ f, scaleC.calculate_frequency pow2 "A" = some f → f < 440 := by
  have hidx : NOTE_SEQUENCE.findIdx? (fun n => n == rustToUppercase "A") = some 9 := by
    decide
  have hval : scaleC.calculate_frequency pow2 "A" = some (440 * pow2 (-1/4)) := by
    unfold Scale.calculate_frequency
    rw [hidx]
    norm_num
  refine ⟨hval, ?_⟩
  intro f hf
  rw [hval] at hf
  have : f = 440 * pow2 (-1/4) := by
    exact Option.some.inj hf.symm
  rw [this]
  nlinarith [hpow]

/-- C1 witness: the divergence theorem instantiated at a concrete `pow2`
model. -/
theorem calculate_frequency_A_not_440_witness :
    ((1 : ℚ)/2 < 1) ∧
    ∀ f, scaleC.calculate_frequency (fun _ => (1 : ℚ)/2) "A" = some f → f < 440 :=
  ⟨by norm_num, (calculate_frequency_A_not_440 (fun _ => (1 : ℚ)/2) (by norm_num)).2⟩

/-- C4: for positive attack/decay/release (and a sustain level in [0, 1], as
the "ramp from 1.0 down to sustain_level" wording presupposes):
the envelope is 0 at time 0, exactly 1 at the end of the attack, exactly
`sustain_level` at the end of the decay, and 0 at and beyond
`attack + decay + release`; on `[attack+decay, attack+decay+release)` it
follows the release ramp `sustain_level · (1 - (t-attack-decay)/release)` —
a pure function of elapsed time with no note-held input, so release begins at
`attack + decay` unconditionally; and each stage is monotone (attack rises,
decay and release fall). -/
theorem amplitude_envelope_stage_spec (e : AmplitudeEnvelope)
    (ha : 0 < e.attack_time) (hd : 0 < e.decay_time) (hr : 0 < e.release_time)
    (hs0 : 0 ≤ e.sustain_level) (hs1 : e.sustain_level ≤ 1) :
    e.amplitude_at_time 0 = 0 ∧
    e.amplitude_at_time e.attack_time = 1 ∧
    e.amplitude_at_time (e.attack_time + e.decay_time) = e.sustain_level ∧
    (∀ t, e.attack_time + e.decay_time + e.release_time ≤ t →
      e.amplitude_at_time t = 0) ∧
    (∀ t, e.attack_time + e.decay_time ≤ t →
      t < e.attack_time + e.decay_time + e.release_time →
      e.amplitude_at_time t
        = e.sustain_level * (1 - (t - e.attack_time - e.decay_time) / e.release_time)) ∧
    (∀ t1 t2, 0 ≤ t1 → t1 ≤ t2 → t2 < e.attack_time →
      e.amplitude_at_time t1 ≤ e.amplitude_at_time t2) ∧
    (∀ t1 t2, e.attack_time ≤ t1 → t1 ≤ t2 →
      t2 < e.attack_time + e.decay_time →
      e.amplitude_at_time t2 ≤ e.amplitude_at_time t1) ∧
    (∀ t1 t2, e.attack_time + e.decay_time ≤ t1 → t1 ≤ t2 →
      t2 < e.attack_time + e.decay_time + e.release_time →
      e.amplitude_at_time t2 ≤ e.amplitude_at_time t1) := by
  obtain ⟨a, d, s, r⟩ := e
  simp only [AmplitudeEnvelope.amplitude_at_time] at *
  refine ⟨?_, ?_, ?_, ?_, ?_, ?_, ?_, ?_⟩
  · rw [if_pos ha]
    exact zero_div a
  · rw [if_neg (lt_irrefl a), if_pos (by linarith)]
    rw [sub_self, zero_div, zero_mul, sub_zero]
  · rw [if_neg (by linarith), if_neg (lt_irrefl (a + d)), if_pos (by linarith)]
    have : a + d - a - d = 0 := by ring
    rw [this, zero_div, sub_zero, mul_one]
  · intro t ht
    rw [if_neg (by linarith), if_neg (by linarith), if_neg (by linarith)]
  · intro t h1 h2
    rw [if_neg (by linarith), if_neg (by linarith), if_pos h2]
  · intro t1 t2 h0 h12 h2a
    rw [if_pos (show t1 < a by linarith), if_pos h2a]
    exact div_le_div_of_nonneg_right h12 ha.le
  · intro t1 t2 h1a h12 h2ad
    rw [if_neg (show ¬ t2 < a by linarith), if_pos (show t2 < a + d by linarith),
      if_neg (show ¬ t1 < a by linarith), if_pos (show t1 < a + d by linarith)]
    have hmono : (t1 - a) / d ≤ (t2 - a) / d :=
      div_le_div_of_nonneg_right (by linarith) hd.le
    nlinarith [hmono, sub_nonneg.mpr hs1]
  · intro t1 t2 h1ad h12 h2adr
    rw [if_neg (show ¬ t2 < a by linarith), if_neg (show ¬ t2 < a + d by linarith),
      if_pos (show t2 < a + d + r by linarith),
      if_neg (show ¬ t1 < a by linarith), if_neg (show ¬ t1 < a + d by linarith),
      if_pos (show t1 < a + d + r by linarith)]
    have hmono : (t1 - a - d) / r ≤ (t2 - a - d) / r :=
      div_le_div_of_nonneg_right (by linarith) hr.le
    nlinarith [hmono, hs0]

/-- C4 witness: the stage equalities on a concrete envelope
(attack 1, decay 1, sustain 1/2, release 1). -/
theorem amplitude_envelope_stage_spec_witness :
    (0 : ℚ) < 1 ∧ (0 : ℚ) ≤ 1/2 ∧ (1 : ℚ)/2 ≤ 1 ∧
    envelopeUnit.amplitude_at_time
        (envelopeUnit.attack_time + envelopeUnit.decay_time)
      = envelopeUnit.sustain_level :=
  ⟨by norm_num, by norm_num, by norm_num,
    (amplitude_envelope_stage_spec envelopeUnit (by norm_num [envelopeUnit])
      (by norm_num [envelopeUnit]) (by norm_num [envelopeUnit])
      (by norm_num [envelopeUnit]) (by norm_num [envelopeUnit])).2.2.1⟩

/-- C6 (code_bug evidence), evaluated on the embedded audio-loop
reconciliation.  (1) After `On("C4")` twice from the initial state, the
reconciled pool holds ZERO oscillators for `"C4"` — not exactly one: `"C4"`
is not in `NOTE_SEQUENCE`, so the frequency lookup fails and no voice is
created; moreover the loop's builder chain never sets the note, so any voice
it does create keeps the builder default `"A4"`.  (2) After `On("C")` and
`On("D")` (both recognized notes) one reconciliation creates TWO oscillators
both keyed `"A4"` — violating "at most one live Oscillator per note key". -/
theorem voice_pool_note_key_divergence :
    ((((emptyNoteState.note_on "C4").note_on "C4").reconcile sinZero powOne
        OscillatorWaveform.Sine 0 0 teDefault scaleC).oscillators.countP
        (fun osc => osc.note == "C4")) = 0 ∧
    ((((emptyNoteState.note_on "C").note_on "D").reconcile sinZero powOne
        OscillatorWaveform.Sine 0 0 teDefault scaleC).oscillators.map
        (fun osc => osc.note)) = ["A4", "A4"] := by
  constructor
  · decide
  · decide

theorem reconcile_oscillators_eq (sin2pi pow2 : ℚ → ℚ)
    (waveform : OscillatorWaveform) (octave_shift : ℤ) (current_time : ℚ)
    (tremolo_effect : TremoloEffect) (scale : Scale) (s : NoteState) :
    (s.reconcile sin2pi pow2 waveform octave_shift current_time tremolo_effect
        scale).oscillators
      = s.playing_notes.foldl
          (reconcileStep sin2pi pow2 waveform octave_shift current_time
            tremolo_effect scale)
          (s.oscillators.filter
            (fun osc => s.playing_notes.any (fun p => p.1 == osc.note && p.2))) :=
  rfl

theorem reconcileStep_mem (sin2pi pow2 : ℚ → ℚ) (waveform : OscillatorWaveform)
    (octave_shift : ℤ) (current_time : ℚ) (tremolo_effect : TremoloEffect)
    (scale : Scale) (oscillators : List Oscillator) (p : String × Bool)
    (osc : Oscillator)
    (h : osc ∈ reconcileStep sin2pi pow2 waveform octave_shift current_time
      tremolo_effect scale oscillators p) :
    osc ∈ oscillators ∨ osc.note = "A4" := by
  unfold reconcileStep at h
  by_cases hc : (p.2 && !(oscillators.any (fun o => o.note == p.1))) = true
  · rw [if_pos hc] at h
    cases hfreq : scale.calculate_frequency pow2 p.1 with
    | some frequency =>
        rw [hfreq] at h
        rcases List.mem_append.mp h with hin | hnew
        · exact Or.inl hin
        · rw [List.mem_singleton] at hnew
          subst hnew
          exact Or.inr rfl
    | none =>
        rw [hfreq] at h
        exact Or.inl h
  · rw [if_neg hc] at h
    exact Or.inl h

theorem foldl_reconcileStep_mem (sin2pi pow2 : ℚ → ℚ)
    (waveform : OscillatorWaveform) (octave_shift : ℤ) (current_time : ℚ)
    (tremolo_effect : TremoloEffect) (scale : Scale)
    (l : List (String × Bool)) :
    ∀ (init : List Oscillator) (osc : Oscillator),
      osc ∈ l.foldl (reconcileStep sin2pi pow2 waveform octave_shift
        current_time tremolo_effect scale) init →
      osc ∈ init ∨ osc.note = "A4" := by
  induction l with
  | nil => intro init osc h; exact Or.inl h
  | cons p rest ih =>
      intro init osc h
      rcases ih _ osc h with hstep | hA4
      · exact reconcileStep_mem sin2pi pow2 waveform octave_shift current_time
          tremolo_effect scale init p osc hstep
      · exact Or.inr hA4

theorem assocInsert_false_key (m : List (String × Bool)) (k : String) :
    ∀ p ∈ assocInsert m k false, p.1 = k → p.2 = false := by
  intro p hp hkey
  rw [assocInsert] at hp
  by_cases hc : (m.any (fun q => q.1 == k)) = true
  · rw [if_pos hc] at hp
    obtain ⟨q, hq, heq⟩ := List.mem_map.mp hp
    by_cases hqk : (q.1 == k) = true
    · rw [if_pos hqk] at heq
      rw [← heq]
    · rw [if_neg hqk] at heq
      have hq1 : q.1 = p.1 := by rw [heq]
      simp only [beq_iff_eq] at hqk
      exact absurd (hq1.trans hkey) hqk
  · rw [if_neg hc] at hp
    rcases List.mem_append.mp hp with hm | hs
    · exfalso
      apply hc
      rw [List.any_eq_true]
      refine ⟨p, hm, ?_⟩
      rw [hkey]
      exact beq_self_eq_true k
    · rw [List.mem_singleton] at hs
      rw [hs]

/-- C7: from every pool state (whose playing map satisfies the `HashMap`
no-duplicate-keys representation invariant) containing an oscillator keyed
`"C4"`, handling `Off("C4")` and then running the next block's pool
reconciliation leaves no `"C4"` oscillator: the retain pass drops it (its
only map entry now carries `false`) and the creation pass never produces a
`"C4"`-keyed voice. -/
theorem note_off_then_reconcile_removes_voice (sin2pi pow2 : ℚ → ℚ)
    (waveform : OscillatorWaveform) (octave_shift : ℤ) (current_time : ℚ)
    (tremolo_effect : TremoloEffect) (scale : Scale) (s : NoteState)
    (_hnodup : playingKeysNodup s)
    (_hosc : ∃ osc ∈ s.oscillators, osc.note = "C4") :
    (((s.note_off "C4").reconcile sin2pi pow2 waveform octave_shift
        current_time tremolo_effect scale).oscillators.countP
        (fun osc => osc.note == "C4")) = 0 := by
  rw [reconcile_oscillators_eq, List.countP_eq_zero]
  intro osc hmem
  rcases foldl_reconcileStep_mem sin2pi pow2 waveform octave_shift current_time
      tremolo_effect scale _ _ osc hmem with hret | hA4
  · rw [List.mem_filter] at hret
    obtain ⟨q, hq, hqp⟩ := List.any_eq_true.mp hret.2
    rw [Bool.and_eq_true] at hqp
    intro hnote
    rw [beq_iff_eq] at hnote
    have hq1 : q.1 = "C4" := by
      have := hqp.1
      rw [beq_iff_eq] at this
      rw [this, hnote]
    have : q.2 = false :=
      assocInsert_false_key s.playing_notes "C4" q hq hq1
    rw [this] at hqp
    exact absurd hqp.2 (by simp)
  · intro hnote
    rw [beq_iff_eq] at hnote
    rw [hA4] at hnote
    exact absurd hnote (by decide)

/-- C7 witness: the removal theorem evaluated on a concrete one-voice pool. -/
theorem note_off_then_reconcile_removes_voice_witness :
    playingKeysNodup noteStateC4 ∧
    (∃ osc ∈ noteStateC4.oscillators, osc.note = "C4") ∧
    (((noteStateC4.note_off "C4").reconcile sinZero powOne
        OscillatorWaveform.Sine 0 0 teDefault scaleC).oscillators.countP
        (fun osc => osc.note == "C4")) = 0 :=
  ⟨by unfold playingKeysNodup; decide, ⟨oscC4, List.mem_singleton_self oscC4, rfl⟩,
    note_off_then_reconcile_removes_voice sinZero powOne
      OscillatorWaveform.Sine 0 0 teDefault scaleC noteStateC4
      (by unfold playingKeysNodup; decide)
      ⟨oscC4, List.mem_singleton_self oscC4, rfl⟩⟩

theorem abs_tableGet_le (t : Fin 1024 → ℚ) (h : ∀ i, |t i| ≤ 1) (i : ℕ) :
    |tableGet t i| ≤ 1 := by
  unfold tableGet
  split
  · exact h _
  · simp

theorem abs_waveTable_le (sin2pi : ℚ → ℚ) (hs : ∀ x, |sin2pi x| ≤ 1)
    (waveform : OscillatorWaveform) (i : Fin 1024) :
    |waveTable sin2pi waveform i| ≤ 1 := by
  have hi0 : (0 : ℚ) ≤ (i : ℚ) / 1024 := by positivity
  have hilt : ((i : ℕ) : ℚ) < 1024 := by exact_mod_cast i.isLt
  have hi1 : (i : ℚ) / 1024 < 1 := (div_lt_one (by norm_num)).mpr hilt
  cases waveform with
  | Silence => simp [waveTable]
  | Sine => exact hs _
  | Square =>
      dsimp only [waveTable]
      split <;> simp
  | Sawtooth =>
      dsimp only [waveTable]
      rw [abs_le]
      constructor <;> linarith
  | Triangle =>
      dsimp only [waveTable]
      by_cases hc : (i : ℚ) / 1024 < 1/2
      · rw [if_pos hc, abs_le]
        constructor <;> linarith
      · rw [if_neg hc, abs_le]
        push_neg at hc
        constructor <;> linarith

theorem castUsize_phase_index_lt (phase : ℚ) (h0 : 0 ≤ phase) (h1 : phase < 1) :
    castUsize (phase * 1024) < 1024 := by
  have hx0 : (0 : ℚ) ≤ phase * 1024 := by positivity
  have hx1 : phase * 1024 < 1024 := by nlinarith
  have hfl1 : ⌊phase * 1024⌋ < 1024 := by
    rw [Int.floor_lt]
    exact_mod_cast hx1
  have hfl0 : 0 ≤ ⌊phase * 1024⌋ := Int.floor_nonneg.mpr hx0
  rw [castUsize, truncQ, if_pos hx0]
  omega

theorem castUsize_phase_index_cast (phase : ℚ) (h0 : 0 ≤ phase) (h1 : phase < 1) :
    ((castUsize (phase * 1024) : ℕ) : ℚ) = (⌊phase * 1024⌋ : ℚ) := by
  have hx0 : (0 : ℚ) ≤ phase * 1024 := by positivity
  have hx1 : phase * 1024 < 1024 := by nlinarith
  have hfl1 : ⌊phase * 1024⌋ < 1024 := by
    rw [Int.floor_lt]
    exact_mod_cast hx1
  have hfl0 : 0 ≤ ⌊phase * 1024⌋ := Int.floor_nonneg.mpr hx0
  have : castUsize (phase * 1024) = (⌊phase * 1024⌋).toNat := by
    rw [castUsize, truncQ, if_pos hx0]
    omega
  rw [this]
  exact_mod_cast congrArg (fun z : ℤ => (z : ℚ)) (Int.toNat_of_nonneg hfl0)

theorem rustRemOne_bounds (x : ℚ) (h : 0 ≤ x) :
    0 ≤ rustRemOne x ∧ rustRemOne x < 1 := by
  rw [rustRemOne, truncQ, if_pos h]
  constructor
  · exact sub_nonneg.mpr (Int.floor_le x)
  · have := Int.lt_floor_add_one x
    push_cast at this ⊢
    linarith

theorem get_sample_step (g : WaveformGenerator)
    (htable : ∀ i, |g.wavetable i| ≤ 1)
    (hp0 : 0 ≤ g.phase) (hp1 : g.phase < 1) (hinc : 0 ≤ g.phase_inc) :
    |(g.get_sample).1| ≤ 1 ∧
    0 ≤ (g.get_sample).2.phase ∧ (g.get_sample).2.phase < 1 ∧
    (g.get_sample).2.phase_inc = g.phase_inc ∧
    (g.get_sample).2.wavetable = g.wavetable := by
  have hcast := castUsize_phase_index_cast g.phase hp0 hp1
  have hfrac0 : 0 ≤ g.phase * 1024 - ((castUsize (g.phase * 1024) : ℕ) : ℚ) := by
    rw [hcast]
    exact sub_nonneg.mpr (Int.floor_le _)
  have hfrac1 : g.phase * 1024 - ((castUsize (g.phase * 1024) : ℕ) : ℚ) < 1 := by
    rw [hcast]
    have := Int.lt_floor_add_one (g.phase * 1024)
    linarith
  have hsv := abs_tableGet_le g.wavetable htable (castUsize (g.phase * 1024))
  have hnv := abs_tableGet_le g.wavetable htable
    ((castUsize (g.phase * 1024) + 1) % 1024)
  rw [abs_le] at hsv hnv
  refine ⟨?_, ?_, ?_, rfl, rfl⟩
  · show |tableGet g.wavetable (castUsize (g.phase * 1024))
        + (g.phase * 1024 - ((castUsize (g.phase * 1024) : ℕ) : ℚ))
          * (tableGet g.wavetable ((castUsize (g.phase * 1024) + 1) % 1024)
            - tableGet g.wavetable (castUsize (g.phase * 1024)))| ≤ 1
    set sv := tableGet g.wavetable (castUsize (g.phase * 1024)) with hsdef
    set nv := tableGet g.wavetable ((castUsize (g.phase * 1024) + 1) % 1024)
      with hndef
    set fv := g.phase * 1024 - ((castUsize (g.phase * 1024) : ℕ) : ℚ) with hfdef
    have e1 : sv + fv * (nv - sv) = sv * (1 - fv) + fv * nv := by ring
    have u1 : sv * (1 - fv) ≤ 1 * (1 - fv) :=
      mul_le_mul_of_nonneg_right hsv.2 (by linarith)
    have u2 : fv * nv ≤ fv * 1 := mul_le_mul_of_nonneg_left hnv.2 hfrac0
    have l1 : (-1) * (1 - fv) ≤ sv * (1 - fv) :=
      mul_le_mul_of_nonneg_right hsv.1 (by linarith)
    have l2 : fv * (-1) ≤ fv * nv := mul_le_mul_of_nonneg_left hnv.1 hfrac0
    rw [abs_le, e1]
    constructor <;> linarith
  · show 0 ≤ rustRemOne (g.phase + g.phase_inc)
    exact (rustRemOne_bounds _ (by linarith)).1
  · show rustRemOne (g.phase + g.phase_inc) < 1
    exact (rustRemOne_bounds _ (by linarith)).2

theorem get_samples_spec (n : ℕ) :
    ∀ g : WaveformGenerator, (∀ i, |g.wavetable i| ≤ 1) → 0 ≤ g.phase →
      g.phase < 1 → 0 ≤ g.phase_inc →
      (∀ x ∈ (g.get_samples n).1, |x| ≤ 1) ∧
      0 ≤ (g.get_samples n).2.phase ∧ (g.get_samples n).2.phase < 1 ∧
      (g.get_samples n).2.phase_inc = g.phase_inc ∧
      (g.get_samples n).2.wavetable = g.wavetable := by
  induction n with
  | zero =>
      intro g h1 h2 h3 h4
      refine ⟨?_, h2, h3, rfl, rfl⟩
      intro x hx
      simp [WaveformGenerator.get_samples] at hx
  | succ n ih =>
      intro g h1 h2 h3 h4
      obtain ⟨hout, hq0, hq1, hqi, hqt⟩ := get_sample_step g h1 h2 h3 h4
      have h1q : ∀ i, |(g.get_sample).2.wavetable i| ≤ 1 := by
        rw [hqt]
        exact h1
      have h4q : 0 ≤ (g.get_sample).2.phase_inc := by
        rw [hqi]
        exact h4
      obtain ⟨ihout, ih0, ih1, ihi, iht⟩ := ih (g.get_sample).2 h1q hq0 hq1 h4q
      refine ⟨?_, ih0, ih1, ihi.trans hqi, iht.trans hqt⟩
      intro x hx
      rcases List.mem_cons.mp hx with hhd | htl
      · rw [hhd]
        exact hout
      · exact ihout x htl

/-- C5: for every waveform kind, every frequency `f ≥ 0` and sample rate
`r > 0` (and any `f32` sine model bounded by 1 in absolute value, as the real
one is), after any number of `get_sample` calls on `new(waveform, f, r)` the
phase stays in `[0, 1)`, every returned sample lies in `[-1, 1]`, and the
wavetable lookup index of the next call is in bounds (< 1024). -/
theorem waveform_generator_bounds (sin2pi : ℚ → ℚ)
    (hs : ∀ x, |sin2pi x| ≤ 1) (waveform : OscillatorWaveform)
    (frequency sample_rate : ℚ) (hf : 0 ≤ frequency) (hr : 0 < sample_rate)
    (n : ℕ) :
    (∀ x ∈ ((WaveformGenerator.new sin2pi waveform frequency
        sample_rate).get_samples n).1, -1 ≤ x ∧ x ≤ 1) ∧
    0 ≤ ((WaveformGenerator.new sin2pi waveform frequency
      sample_rate).get_samples n).2.phase ∧
    ((WaveformGenerator.new sin2pi waveform frequency
      sample_rate).get_samples n).2.phase < 1 ∧
    castUsize (((WaveformGenerator.new sin2pi waveform frequency
      sample_rate).get_samples n).2.phase * 1024) < 1024 := by
  have hspec := get_samples_spec n (WaveformGenerator.new sin2pi waveform
      frequency sample_rate)
    (fun i => abs_waveTable_le sin2pi hs waveform i)
    le_rfl (show (0 : ℚ) < 1 by norm_num) (div_nonneg hf hr.le)
  obtain ⟨hout, h0, h1, _, _⟩ := hspec
  exact ⟨fun x hx => abs_le.mp (hout x hx), h0, h1,
    castUsize_phase_index_lt _ h0 h1⟩

/-- C5 witness: the bounds instantiated for a square-wave generator at
440 Hz / 44100 Hz over three samples. -/
theorem waveform_generator_bounds_witness :
    (∀ x, |sinZero x| ≤ 1) ∧ (0 : ℚ) ≤ 440 ∧ (0 : ℚ) < 44100 ∧
    (0 ≤ ((WaveformGenerator.new sinZero OscillatorWaveform.Square 440
        44100).get_samples 3).2.phase ∧
      ((WaveformGenerator.new sinZero OscillatorWaveform.Square 440
        44100).get_samples 3).2.phase < 1) :=
  ⟨fun x => by simp [sinZero], by norm_num, by norm_num,
    (waveform_generator_bounds sinZero (fun x => by simp [sinZero])
      OscillatorWaveform.Square 440 44100 (by norm_num) (by norm_num) 3).2.1,
    (waveform_generator_bounds sinZero (fun x => by simp [sinZero])
      OscillatorWaveform.Square 440 44100 (by norm_num) (by norm_num) 3).2.2.1⟩

theorem fresh_tremolo_first_gain (sin2pi : ℚ → ℚ) (h0 : sin2pi 0 = 0)
    (rate depth sample_rate s r : ℚ) :
    ((Tremolo.new sin2pi rate depth sample_rate).process s r).1 = s := by
  show s * tableGet (Tremolo.new sin2pi rate depth sample_rate).tremolo_table
      (Tremolo.new sin2pi rate depth sample_rate).table_index = s
  rw [Tremolo.new]
  rw [tableGet, dif_pos (show (0 : ℕ) < 1024 by norm_num)]
  simp [h0]

theorem genSamples_enabled_noop (sin2pi : ℚ → ℚ) (h0 : sin2pi 0 = 0)
    (env : AmplitudeEnvelope) (te1 te2 : TremoloEffect) (st ct : ℚ) :
    ∀ (n i : ℕ) (g : WaveformGenerator),
      genSamples sin2pi env te1 true st ct i n g
        = genSamples sin2pi env te2 false st ct i n g := by
  intro n
  induction n with
  | zero => intro i g; rfl
  | succ n ih =>
      intro i g
      show ((((Tremolo.new sin2pi te1.get_rate te1.get_depth
            g.sample_rate).process
              ((g.get_sample).1
                * env.amplitude_at_time (ct + (i : ℚ) / g.sample_rate - st))
              g.sample_rate).1)
          :: (genSamples sin2pi env te1 true st ct (i + 1) n (g.get_sample).2).1,
          (genSamples sin2pi env te1 true st ct (i + 1) n (g.get_sample).2).2)
        = (((g.get_sample).1
              * env.amplitude_at_time (ct + (i : ℚ) / g.sample_rate - st))
            :: (genSamples sin2pi env te2 false st ct (i + 1) n (g.get_sample).2).1,
          (genSamples sin2pi env te2 false st ct (i + 1) n (g.get_sample).2).2)
      rw [fresh_tremolo_first_gain sin2pi h0, ih (i + 1) (g.get_sample).2]

/-- C10: enabling the shared tremolo never changes a voice's output.  For
every oscillator, block start time and sample count, `generate_wave` with the
tremolo enabled flag forced `true` returns the same sample vector as with it
forced `false`: each loop iteration builds a brand-new `Tremolo` whose first
gain is `table[0] = 1 - depth·sin(0) = 1` and discards the advanced LFO state
immediately.  (The only analytic fact needed is `sin 0 = 0`, exact in
`f32`.) -/
theorem generate_wave_tremolo_flag_noop (sin2pi : ℚ → ℚ) (h0 : sin2pi 0 = 0)
    (osc : Oscillator) (current_time : ℚ) (num_samples : ℕ) :
    (Oscillator.generate_wave sin2pi
        { osc with tremolo_effect := { osc.tremolo_effect with enabled := true } }
        current_time num_samples).1
      = (Oscillator.generate_wave sin2pi
          { osc with tremolo_effect := { osc.tremolo_effect with enabled := false } }
          current_time num_samples).1 := by
  unfold Oscillator.generate_wave
  dsimp only
  rw [genSamples_enabled_noop sin2pi h0 osc.envelope
    { osc.tremolo_effect with enabled := true }
    { osc.tremolo_effect with enabled := false }
    (osc.start_time.getD current_time) current_time num_samples 0
    osc.waveform_generator]

/-- C10 witness: the tremolo-flag independence evaluated on a concrete
oscillator over two samples. -/
theorem generate_wave_tremolo_flag_noop_witness :
    sinZero 0 = 0 ∧
    (Oscillator.generate_wave sinZero
        { oscC4 with tremolo_effect := { oscC4.tremolo_effect with enabled := true } }
        0 2).1
      = (Oscillator.generate_wave sinZero
          { oscC4 with tremolo_effect := { oscC4.tremolo_effect with enabled := false } }
          0 2).1 :=
  ⟨rfl, generate_wave_tremolo_flag_noop sinZero rfl oscC4 0 2⟩
